import Mathlib

/-!
Shallow embedding of `smallvec::SmallVec<T, N>` from
`src/project/include/SmallVec.hpp`, together with proofs about the
storage-representation engine it implements.

Two views of the same source code are embedded:

* a functional view (`SV`) that tracks the element contents of the inline
  array and of the heap block, the capacity and the length, exactly
  following the control flow of the C++ member functions (allocation is
  assumed to succeed in this view);
* a resource view (`RVec` together with an allocation environment `Mem`)
  that tracks allocation identities, every `malloc`/`realloc`/`free` call,
  and the exception paths, in order to reason about leaks and double
  releases.

Unspecified ("moved-from" or uninitialized) element slots are modelled by
the `default` value of the element type; no theorem below depends on the
value of such a slot.
-/

namespace SmallVecModel

/-- Functional state of `SmallVec<T, N>`: the template parameter `N`, the
contents of the inline array `impl.stack` (always `N` slots in C++), the
contents of the heap block pointed to by `impl.heap` (meaningful only while
the heap is the live storage), and the `cap` and `len` counters. -/
structure SV (α : Type) where
  N : Nat
  stack : List α
  heap : List α
  cap : Nat
  len : Nat
deriving Repr, DecidableEq

/-- `onHeap()` from the source: `cap > N`. -/
def onHeap {α : Type} (v : SV α) : Bool := v.N < v.cap

/-- `onStack()` from the source: `!onHeap()`. -/
def onStack {α : Type} (v : SV α) : Bool := !(onHeap v)

/-- `ptr()` from the source: the live storage, `impl.heap` when on the heap
and `impl.stack` otherwise. -/
def ptrList {α : Type} (v : SV α) : List α :=
  if onHeap v then v.heap else v.stack

/-- Write one slot through `ptr()`: `ptr()[i] = x`. -/
def writeSlot {α : Type} (v : SV α) (i : Nat) (x : α) : SV α :=
  if onHeap v then { v with heap := v.heap.set i x }
  else { v with stack := v.stack.set i x }

/-- `operator[]` from the source: `ptr()[index]` (reads out of range give
`default`, standing for the undefined behavior of the C++ read). -/
def readSlot {α : Type} [Inhabited α] (v : SV α) (i : Nat) : α :=
  (ptrList v).getD i default

/-- The logical sequence held by the container: the first `len` slots of the
live storage. -/
def contents {α : Type} (v : SV α) : List α :=
  (ptrList v).take v.len

/-- Well-formedness of a functional state: the inline array has its declared
`N` slots, `cap` never went below `N`, `len` fits in `cap`, and whenever the
heap is live its block holds exactly `cap` slots. -/
def WF {α : Type} (v : SV α) : Prop :=
  v.stack.length = v.N ∧ v.N ≤ v.cap ∧ v.len ≤ v.cap ∧
    (onHeap v = true → v.heap.length = v.cap)

instance {α : Type} [DecidableEq α] (v : SV α) : Decidable (WF v) := by
  unfold WF; infer_instance

/-- `std::swap_ranges(src, src + src.length, dst + off)` seen from the
destination: overwrite `dst` starting at `off` with the elements of `src`. -/
def overwriteAt {α : Type} (dst : List α) (off : Nat) (src : List α) : List α :=
  dst.take off ++ src ++ dst.drop (off + src.length)

/-- Write a range of values through `ptr()` starting at offset `off`. -/
def writeRange {α : Type} (v : SV α) (off : Nat) (src : List α) : SV α :=
  if onHeap v then { v with heap := overwriteAt v.heap off src }
  else { v with stack := overwriteAt v.stack off src }

/-- The `while (n > result) result <<= 1;` loop from `reserve`, embedded with
an explicit fuel argument so that the function is structurally recursive.
Fuel `n` always suffices: the accumulator doubles from `1`, and `2 ^ n ≥ n`
for every `n`, so the loop condition fails after at most `n` iterations. -/
def nextPowerOfTwoGo : Nat → Nat → Nat → Nat
  | 0, _, result => result
  | fuel + 1, n, result =>
    if result < n then nextPowerOfTwoGo fuel n (result * 2) else result

/-- `nextPowerOfTwo` from `SmallVec::reserve`: `result = 1`, then double
while `n > result`. -/
def nextPowerOfTwo (n : Nat) : Nat := nextPowerOfTwoGo n n 1

/-- `SmallVec::grow(newSize)` (allocation assumed to succeed in this view).
Branches follow the source:
* `newSize ≤ N` and on the stack: early return, `cap` untouched;
* `newSize ≤ N` and on the heap: swap the first `len` heap elements into the
  inline array, free the heap block, set `cap = newSize`;
* `newSize > N`, `newSize ≠ cap`, on the stack: `malloc` a block of
  `newSize` slots, swap all `N` inline slots into it, set `cap = newSize`;
* `newSize > N`, `newSize ≠ cap`, on the heap: `realloc`, preserving the
  first `min(cap, newSize)` slots, set `cap = newSize`;
* `newSize > N`, `newSize = cap`: only `cap = newSize`. -/
def grow {α : Type} [Inhabited α] (v : SV α) (newSize : Nat) : SV α :=
  if newSize ≤ v.N then
    if onStack v then v
    else
      { v with stack := v.heap.take v.len ++ v.stack.drop v.len,
               heap := [], cap := newSize }
  else if newSize ≠ v.cap then
    if onStack v then
      { v with heap := v.stack.take v.N ++ List.replicate (newSize - v.N) default,
               cap := newSize }
    else
      { v with heap := v.heap.take newSize ++ List.replicate (newSize - v.heap.length) default,
               cap := newSize }
  else
    { v with cap := newSize }

/-- `SmallVec::reserve(additional)`: no-op when `cap - len ≥ additional`
(size_t subtraction; `cap ≥ len` in every well-formed state), otherwise
`grow(nextPowerOfTwo(len + additional))`. -/
def reserve {α : Type} [Inhabited α] (v : SV α) (additional : Nat) : SV α :=
  if additional ≤ v.cap - v.len then v
  else grow v (nextPowerOfTwo (v.len + additional))

/-- `SmallVec::reserveExact(additional)`: no-op under the same guard,
otherwise `grow(len + additional)`. -/
def reserveExact {α : Type} [Inhabited α] (v : SV α) (additional : Nat) : SV α :=
  if additional ≤ v.cap - v.len then v
  else grow v (v.len + additional)

/-- `SmallVec::shrink()`: no-op on the stack; when on the heap with
`N ≥ len`, swap the elements back into the inline array, free the heap
block and set `cap = len` (the source sets `cap = len`, not `cap = N`);
otherwise, when `cap > len`, `grow(len)`. -/
def shrink {α : Type} [Inhabited α] (v : SV α) : SV α :=
  if onStack v then v
  else if v.len ≤ v.N then
    { v with stack := v.heap.take v.len ++ v.stack.drop v.len,
             heap := [], cap := v.len }
  else if v.len < v.cap then grow v v.len
  else v

/-- `SmallVec::push(value)`: `reserve(1)` when `len == cap`, then
`ptr()[len] = value; len++`. -/
def push {α : Type} [Inhabited α] (v : SV α) (x : α) : SV α :=
  let w := if v.len = v.cap then reserve v 1 else v
  { writeSlot w w.len x with len := w.len + 1 }

/-- A sequence of `push` calls. -/
def pushAll {α : Type} [Inhabited α] (v : SV α) (l : List α) : SV α :=
  l.foldl push v

/-- `SmallVec::pop()`: decrement `len` when positive. -/
def pop {α : Type} (v : SV α) : SV α :=
  if 0 < v.len then { v with len := v.len - 1 } else v

/-- The default constructor `SmallVec()`: zero-initialized inline array,
`cap = N`, `len = 0`. -/
def mkSmallVec (α : Type) [Inhabited α] (N : Nat) : SV α :=
  ⟨N, List.replicate N default, [], N, 0⟩

/-- The constructor from a fixed-size literal `SmallVec(T(&&data)[M])`: for
`M ≤ N` the elements are swapped into the inline array (`cap = N`); for
`M > N` a heap block of `M` slots is allocated and the elements swapped into
it (`cap = M`). `len = M` in both cases. -/
def fromList (α : Type) [Inhabited α] (N : Nat) (l : List α) : SV α :=
  if l.length ≤ N then
    ⟨N, l ++ List.replicate (N - l.length) default, [], N, l.length⟩
  else
    ⟨N, List.replicate N default, l, l.length, l.length⟩

/-- `SmallVec::intoVector() &&`: a vector of `len` elements; on the stack the
live elements are swapped into it, on the heap it is rebuilt from the
iterator range `[begin, end)`. Both branches yield the first `len` elements
of the live storage. -/
def intoVector {α : Type} [Inhabited α] (v : SV α) : List α :=
  if onStack v then (ptrList v).take v.len else (ptrList v).take v.len

/-- `SmallVec::extendConsuming(begin, end)` seen from the destination:
`reserveExact(size)` then swap the source range into slots
`[len, len + size)` and add `size` to `len`. -/
def extendConsuming {α : Type} [Inhabited α] (v : SV α) (src : List α) : SV α :=
  let w := reserveExact v src.length
  { writeRange w w.len src with len := w.len + src.length }

/-- The move constructor `SmallVec(SmallVec &&rhs)`: a fresh container with
`cap = N`, `len = 0` and an uninitialized inline array (modelled by
`default` slots), populated by `extendConsuming(rhs.begin(), rhs.end())`.
The swap leaves the source's first `len` slots holding the destination's
former (unspecified) values; its `cap`, `len` and representation are
untouched. Returns `(destination, source after the move)`. -/
def moveConstructF {α : Type} [Inhabited α] (a : SV α) : SV α × SV α :=
  (extendConsuming (mkSmallVec α a.N) (contents a),
   writeRange a 0 (List.replicate a.len default))

/-- `SmallVec::takenSize()` with the byte sizes `sizeof(SmallVec)` and
`sizeof(T)` as parameters: on the heap the source adds `(cap + 1) * sizeof(T)`
to the container's own size. -/
def takenSize {α : Type} (v : SV α) (sizeofSmallVec sizeofT : Nat) : Nat :=
  if onHeap v then sizeofSmallVec + (v.cap + 1) * sizeofT else sizeofSmallVec

/-- Byte size of the `SmallVec` object itself, from its members: the union
(`T stack[N]` overlaid with `T *heap`, hence `max (N * sizeof T) ptrSize`
bytes, padding ignored) followed by the two `std::size_t` counters `cap` and
`len`. -/
def sizeofSmallVec (sizeofT sizeofSizeT ptrSize N : Nat) : Nat :=
  max (N * sizeofT) ptrSize + 2 * sizeofSizeT

/-- Byte offset, relative to the container's own address, of the reference
produced by `SmallVec::back()` as written: `this[len - 1]` is pointer
arithmetic on `this`, so it designates the object at byte offset
`(len - 1) * sizeof(SmallVec)`. -/
def backOffset (sizeofSV len : Nat) : Nat := (len - 1) * sizeofSV

/-- Byte offset, relative to the start of the live element storage, of
element `i` (for the inline representation the storage is the union, which
is the first member of the object, at byte offset 0). -/
def elemOffset (sizeofT i : Nat) : Nat := i * sizeofT

/-- Allocation environment for the resource view: a fresh-identity counter,
the identities of the currently live heap blocks, the log of every release
(`free`, or the release half of `realloc`), and the count of allocations. -/
structure Mem where
  nextId : Nat
  live : List Nat
  freeLog : List Nat
  allocCount : Nat
deriving Repr, DecidableEq

/-- A successful `malloc`: returns the environment with a fresh block and
the identity of that block. -/
def mallocR (m : Mem) : Mem × Nat :=
  ({ m with nextId := m.nextId + 1, live := m.live ++ [m.nextId],
            allocCount := m.allocCount + 1 }, m.nextId)

/-- A `free` call on block identity `i`: the block stops being live and the
call is logged (a second `free` of the same identity shows up as a duplicate
in the log — a double release). -/
def freeR (m : Mem) (i : Nat) : Mem :=
  { m with live := m.live.erase i, freeLog := m.freeLog ++ [i] }

/-- Resource state of `SmallVec<T, N>`: the counters, and the block identity
currently stored in `impl.heap` (kept even when it dangles, as the bits of a
freed pointer are in the C++ object). -/
structure RVec where
  N : Nat
  cap : Nat
  len : Nat
  heapPtr : Option Nat
deriving Repr, DecidableEq

/-- `onHeap()` in the resource view. -/
def onHeapR (v : RVec) : Bool := v.N < v.cap

/-- `onStack()` in the resource view. -/
def onStackR (v : RVec) : Bool := !(onHeapR v)

/-- The default constructor in the resource view. -/
def mkRVec (N : Nat) : RVec := ⟨N, N, 0, none⟩

/-- `SmallVec::grow(newSize)` in the resource view, with an oracle `allocOk`
deciding whether the allocation step (if any) succeeds. Returns the new
container state, the new environment, and whether the call threw. Following
the source:
* heap → stack: `free(heapPrt)` after the swap, no failure possible;
* stack → heap: `malloc`; on failure throw with nothing released and the
  container untouched;
* heap → heap: `realloc`, which on success releases the old block and yields
  a fresh one; on failure the source does `free(impl.heap)` and throws,
  leaving `cap` and the (now dangling) `impl.heap` pointer unchanged. -/
def growR (v : RVec) (m : Mem) (allocOk : Bool) (newSize : Nat) : RVec × Mem × Bool :=
  if newSize ≤ v.N then
    if onStackR v then (v, m, false)
    else ({ v with heapPtr := none, cap := newSize },
          freeR m (v.heapPtr.getD 0), false)
  else if newSize ≠ v.cap then
    if onStackR v then
      if allocOk then
        let p := mallocR m
        ({ v with heapPtr := some p.2, cap := newSize }, p.1, false)
      else (v, m, true)
    else
      if allocOk then
        let p := mallocR (freeR m (v.heapPtr.getD 0))
        ({ v with heapPtr := some p.2, cap := newSize }, p.1, false)
      else (v, freeR m (v.heapPtr.getD 0), true)
  else ({ v with cap := newSize }, m, false)

/-- `SmallVec::reserve` in the resource view. -/
def reserveR (v : RVec) (m : Mem) (allocOk : Bool) (additional : Nat) : RVec × Mem × Bool :=
  if additional ≤ v.cap - v.len then (v, m, false)
  else growR v m allocOk (nextPowerOfTwo (v.len + additional))

/-- `SmallVec::reserveExact` in the resource view. -/
def reserveExactR (v : RVec) (m : Mem) (allocOk : Bool) (additional : Nat) : RVec × Mem × Bool :=
  if additional ≤ v.cap - v.len then (v, m, false)
  else growR v m allocOk (v.len + additional)

/-- `SmallVec::shrink` in the resource view: on the heap with `N ≥ len` the
heap block is released and `cap` set to `len`; with `len > N < cap` it is
`grow(len)` (a `realloc`). -/
def shrinkR (v : RVec) (m : Mem) (allocOk : Bool) : RVec × Mem × Bool :=
  if onStackR v then (v, m, false)
  else if v.len ≤ v.N then
    ({ v with heapPtr := none, cap := v.len }, freeR m (v.heapPtr.getD 0), false)
  else if v.len < v.cap then growR v m allocOk v.len
  else (v, m, false)

/-- `SmallVec::push` in the resource view: the element write does not touch
the allocation environment; when `reserve(1)` throws, the exception
propagates before `len` is incremented. -/
def pushR (v : RVec) (m : Mem) (allocOk : Bool) : RVec × Mem × Bool :=
  if v.len = v.cap then
    let r := reserveR v m allocOk 1
    if r.2.2 then (r.1, r.2.1, true)
    else ({ r.1 with len := r.1.len + 1 }, r.2.1, false)
  else ({ v with len := v.len + 1 }, m, false)

/-- `SmallVec::extendConsuming` in the resource view, for a source range of
`k` elements: `reserveExact(k)` then (when it did not throw) `len += k`. -/
def extendConsumingR (v : RVec) (m : Mem) (allocOk : Bool) (k : Nat) : RVec × Mem × Bool :=
  let r := reserveExactR v m allocOk k
  if r.2.2 then (r.1, r.2.1, true)
  else ({ r.1 with len := r.1.len + k }, r.2.1, false)

/-- The move constructor in the resource view: a fresh container
(`cap = N`, `len = 0`, no heap pointer) populated by
`extendConsuming(rhs.begin(), rhs.end())`; the source's fields are not
touched (only its element slots are swapped). Returns
`(destination, source, environment, threw)`. -/
def moveConstructR (a : RVec) (m : Mem) (allocOk : Bool) : RVec × RVec × Mem × Bool :=
  let r := extendConsumingR (mkRVec a.N) m allocOk a.len
  (r.1, a, r.2.1, r.2.2)

/-- The destructor `~SmallVec()`: `free(impl.heap)` when `onHeap()`. -/
def destructR (v : RVec) (m : Mem) : Mem :=
  if onHeapR v then freeR m (v.heapPtr.getD 0) else m

/-- A concrete run for `N = 1` exercising the `realloc`-failure path: two
successful pushes (the second moves to the heap), a third push whose
`realloc` fails, then the destructor. -/
def reallocFailTrace : Mem :=
  let m0 : Mem := ⟨0, [], [], 0⟩
  let r1 := pushR (mkRVec 1) m0 true
  let r2 := pushR r1.1 r1.2.1 true
  let r3 := pushR r2.1 r2.2.1 false
  destructR r3.1 r3.2.1

/-- A concrete run for `N = 2`: push three values (moving to the heap), pop
twice, then `shrink()`. -/
def shrinkBelowNTrace : SV Nat :=
  shrink (pop (pop (pushAll (mkSmallVec Nat 2) [10, 20, 30])))

/-- The property "`c` is the smallest power of two that is `≥ n`". -/
def IsLeastPowTwoGeq (n c : Nat) : Prop :=
  (∃ k, c = 2 ^ k) ∧ n ≤ c ∧ ∀ k, n ≤ 2 ^ k → c ≤ 2 ^ k

lemma set_take_succ {α : Type} (x : α) :
    ∀ (l : List α) (k : Nat), k < l.length →
      (l.set k x).take (k + 1) = l.take k ++ [x] := by
  intro l
  induction l with
  | nil => intro k h; simp at h
  | cons a t ih =>
    intro k h
    cases k with
    | zero => simp
    | succ j =>
      simp only [List.set_cons_succ, List.take_succ_cons, List.cons_append]
      rw [ih j (by simpa using h)]

lemma getD_take_of_lt {α : Type} (d : α) :
    ∀ (l : List α) (n i : Nat), i < n →
      (l.take n).getD i d = l.getD i d := by
  intro l
  induction l with
  | nil => intro n i _; simp
  | cons a t ih =>
    intro n i h
    cases n with
    | zero => omega
    | succ m =>
      cases i with
      | zero => simp
      | succ j =>
        simp only [List.take_succ_cons, List.getD_cons_succ]
        exact ih m j (by omega)

lemma nextPowerOfTwoGo_ge :
    ∀ (fuel n r : Nat), n ≤ r * 2 ^ fuel → n ≤ nextPowerOfTwoGo fuel n r := by
  intro fuel
  induction fuel with
  | zero => intro n r h; simpa [nextPowerOfTwoGo] using h
  | succ f ih =>
    intro n r h
    simp only [nextPowerOfTwoGo]
    split
    · exact ih n (r * 2) (by rw [pow_succ] at h; nlinarith)
    · omega

lemma nextPowerOfTwoGo_pow2 :
    ∀ (fuel n r : Nat), (∃ j, r = 2 ^ j) →
      ∃ k, nextPowerOfTwoGo fuel n r = 2 ^ k := by
  intro fuel
  induction fuel with
  | zero => intro n r h; simpa [nextPowerOfTwoGo] using h
  | succ f ih =>
    intro n r h
    obtain ⟨j, rfl⟩ := h
    simp only [nextPowerOfTwoGo]
    split
    · exact ih n (2 ^ j * 2) ⟨j + 1, by rw [pow_succ]⟩
    · exact ⟨j, rfl⟩

lemma nextPowerOfTwoGo_min :
    ∀ (fuel n r k : Nat), (∃ j, r = 2 ^ j) → n ≤ 2 ^ k → r ≤ 2 ^ k →
      nextPowerOfTwoGo fuel n r ≤ 2 ^ k := by
  intro fuel
  induction fuel with
  | zero => intro n r k _ _ hr; simpa [nextPowerOfTwoGo] using hr
  | succ f ih =>
    intro n r k hpow hn hr
    obtain ⟨j, rfl⟩ := hpow
    simp only [nextPowerOfTwoGo]
    split
    · rename_i hlt
      refine ih n (2 ^ j * 2) k ⟨j + 1, by rw [pow_succ]⟩ hn ?_
      rw [← pow_succ]
      have hjk : j < k := by
        by_contra hjk
        have : 2 ^ k ≤ 2 ^ j := Nat.pow_le_pow_right (by norm_num) (by omega)
        omega
      exact Nat.pow_le_pow_right (by norm_num) (by omega)
    · exact hr

lemma nextPowerOfTwo_ge (n : Nat) : n ≤ nextPowerOfTwo n :=
  nextPowerOfTwoGo_ge n n 1 (by simpa using Nat.le_of_lt (Nat.lt_two_pow n))

lemma nextPowerOfTwo_pow2 (n : Nat) : ∃ k, nextPowerOfTwo n = 2 ^ k :=
  nextPowerOfTwoGo_pow2 n n 1 ⟨0, rfl⟩

lemma nextPowerOfTwo_min (n k : Nat) (h : n ≤ 2 ^ k) : nextPowerOfTwo n ≤ 2 ^ k :=
  nextPowerOfTwoGo_min n n 1 k ⟨0, rfl⟩ h (Nat.one_le_two_pow)

lemma nextPowerOfTwo_least (n : Nat) : IsLeastPowTwoGeq n (nextPowerOfTwo n) :=
  ⟨nextPowerOfTwo_pow2 n, nextPowerOfTwo_ge n, fun k hk => nextPowerOfTwo_min n k hk⟩

lemma onHeap_eq_true_iff {α : Type} (v : SV α) : onHeap v = true ↔ v.N < v.cap := by
  simp [onHeap]

lemma onStack_eq_true_iff {α : Type} (v : SV α) : onStack v = true ↔ v.cap ≤ v.N := by
  simp [onStack, onHeap]

lemma ptrList_heap {α : Type} (v : SV α) (h : onHeap v = true) :
    ptrList v = v.heap := by
  unfold ptrList
  rw [h]
  rfl

lemma ptrList_stack {α : Type} (v : SV α) (h : onHeap v = false) :
    ptrList v = v.stack := by
  unfold ptrList
  rw [h]
  rfl

lemma ptrList_length {α : Type} (v : SV α) (h : WF v) :
    (ptrList v).length = v.cap := by
  obtain ⟨hs, hN, _, hh⟩ := h
  unfold ptrList
  by_cases hH : onHeap v = true
  · simp [hH, hh hH]
  · have : v.cap ≤ v.N := by
      rw [onHeap_eq_true_iff] at hH; omega
    simp only [hH]
    simp only [Bool.not_eq_true] at hH
    simp [hH, hs]
    omega

lemma contents_length {α : Type} (v : SV α) (h : WF v) :
    (contents v).length = v.len := by
  unfold contents
  rw [List.length_take, ptrList_length v h]
  have := h.2.2.1
  omega

lemma grow_spec {α : Type} [Inhabited α] (v : SV α) (ns : Nat)
    (h : WF v) (hgt : v.cap < ns) :
    WF (grow v ns) ∧ (grow v ns).cap = ns ∧ (grow v ns).len = v.len ∧
      (grow v ns).N = v.N ∧ contents (grow v ns) = contents v := by
  obtain ⟨hs, hN, hl, hh⟩ := h
  have hnsN : ¬ ns ≤ v.N := by omega
  have hne : ns ≠ v.cap := by omega
  unfold grow
  rw [if_neg hnsN, if_pos hne]
  by_cases hst : onStack v = true
  · have hcap : v.cap = v.N := by
      rw [onStack_eq_true_iff] at hst; omega
    rw [if_pos hst]
    have hHv : onHeap v = false := by
      rw [onStack, Bool.not_eq_true'] at hst; exact hst
    have hlenheap : (v.stack.take v.N ++ List.replicate (ns - v.N) default).length = ns := by
      simp [hs]; omega
    refine ⟨⟨hs, show v.N ≤ ns by omega, show v.len ≤ ns by omega, fun _ => hlenheap⟩,
      rfl, rfl, rfl, ?_⟩
    show (ptrList _).take v.len = contents v
    have hH' : onHeap (⟨v.N, v.stack, v.stack.take v.N ++ List.replicate (ns - v.N) default, ns, v.len⟩ : SV α) = true :=
      (onHeap_eq_true_iff _).mpr (show v.N < ns by omega)
    unfold contents ptrList
    simp only [hH', hHv, if_true, if_false]
    rw [List.take_append_of_le_length (by simp [hs]; omega), List.take_take]
    congr 1
    omega
  · have hHv : onHeap v = true := by
      rw [onStack, Bool.not_eq_true'] at hst
      simpa using hst
    rw [if_neg hst]
    have hlen : v.heap.length = v.cap := hh hHv
    have htk : v.heap.take ns = v.heap := List.take_of_length_le (by omega)
    have hlenheap : (v.heap.take ns ++ List.replicate (ns - v.heap.length) default).length = ns := by
      simp [hlen]; omega
    refine ⟨⟨hs, show v.N ≤ ns by omega, show v.len ≤ ns by omega, fun _ => hlenheap⟩,
      rfl, rfl, rfl, ?_⟩
    show (ptrList _).take v.len = contents v
    have hH' : onHeap (⟨v.N, v.stack, v.heap.take ns ++ List.replicate (ns - v.heap.length) default, ns, v.len⟩ : SV α) = true :=
      (onHeap_eq_true_iff _).mpr (show v.N < ns by omega)
    unfold contents ptrList
    simp only [hH', hHv, if_true]
    rw [htk, List.take_append_of_le_length (by omega)]

lemma reserve_spec {α : Type} [Inhabited α] (v : SV α) (a : Nat) (h : WF v) :
    WF (reserve v a) ∧ v.len + a ≤ (reserve v a).cap ∧ (reserve v a).len = v.len ∧
      (reserve v a).N = v.N ∧ contents (reserve v a) = contents v := by
  have hl := h.2.2.1
  unfold reserve
  split
  · exact ⟨h, by omega, rfl, rfl, rfl⟩
  · rename_i hg
    have hns : v.len + a ≤ nextPowerOfTwo (v.len + a) := nextPowerOfTwo_ge _
    have hg2 : v.cap < nextPowerOfTwo (v.len + a) := by omega
    obtain ⟨w1, w2, w3, w4, w5⟩ := grow_spec v _ h hg2
    exact ⟨w1, by omega, w3, w4, w5⟩

lemma reserveExact_spec {α : Type} [Inhabited α] (v : SV α) (a : Nat) (h : WF v) :
    WF (reserveExact v a) ∧ v.len + a ≤ (reserveExact v a).cap ∧
      (reserveExact v a).len = v.len ∧ (reserveExact v a).N = v.N ∧
      contents (reserveExact v a) = contents v := by
  have hl := h.2.2.1
  unfold reserveExact
  split
  · exact ⟨h, by omega, rfl, rfl, rfl⟩
  · rename_i hg
    have hg2 : v.cap < v.len + a := by omega
    obtain ⟨w1, w2, w3, w4, w5⟩ := grow_spec v _ h hg2
    exact ⟨w1, by omega, w3, w4, w5⟩

lemma writeSlot_fields {α : Type} (v : SV α) (i : Nat) (x : α) :
    (writeSlot v i x).len = v.len ∧ (writeSlot v i x).cap = v.cap ∧
      (writeSlot v i x).N = v.N := by
  unfold writeSlot
  split <;> exact ⟨rfl, rfl, rfl⟩

lemma writeStep_spec {α : Type} [Inhabited α] (w : SV α) (x : α)
    (h : WF w) (hlt : w.len < w.cap) :
    WF { writeSlot w w.len x with len := w.len + 1 } ∧
      contents { writeSlot w w.len x with len := w.len + 1 } = contents w ++ [x] := by
  obtain ⟨hs, hN, hl, hh⟩ := h
  unfold writeSlot
  by_cases hH : onHeap w = true
  · have hlen : w.heap.length = w.cap := hh hH
    rw [if_pos hH]
    have hH' : onHeap ({ w with heap := w.heap.set w.len x, len := w.len + 1 } : SV α) = true := hH
    refine ⟨⟨hs, hN, show w.len + 1 ≤ w.cap by omega, fun _ => by simp [hlen]⟩, ?_⟩
    unfold contents ptrList
    simp only [hH, hH', if_true]
    exact set_take_succ x w.heap w.len (by omega)
  · have hcap : w.cap = w.N := by
      rw [onHeap_eq_true_iff] at hH; omega
    rw [if_neg hH]
    have hHf : onHeap w = false := by
      revert hH; cases onHeap w <;> simp
    have hH' : onHeap ({ w with stack := w.stack.set w.len x, len := w.len + 1 } : SV α) = false := hHf
    refine ⟨⟨by simp [hs], hN, show w.len + 1 ≤ w.cap by omega,
      fun hc => by rw [hH'] at hc; cases hc⟩, ?_⟩
    unfold contents ptrList
    simp only [hHf, hH', if_false]
    exact set_take_succ x w.stack w.len (by omega)

lemma push_spec {α : Type} [Inhabited α] (v : SV α) (x : α) (h : WF v) :
    WF (push v x) ∧ (push v x).len = v.len + 1 ∧ (push v x).N = v.N ∧
      contents (push v x) = contents v ++ [x] := by
  by_cases hc : v.len = v.cap
  · have key : push v x = { writeSlot (reserve v 1) (reserve v 1).len x with len := (reserve v 1).len + 1 } := by
      unfold push
      rw [if_pos hc]
    obtain ⟨a1, a2, a3, a4, a5⟩ := reserve_spec v 1 h
    obtain ⟨b1, b2⟩ := writeStep_spec (reserve v 1) x a1 (by omega)
    rw [key]
    exact ⟨b1, by rw [show ({ writeSlot (reserve v 1) (reserve v 1).len x with len := (reserve v 1).len + 1 } : SV α).len = (reserve v 1).len + 1 from rfl, a3],
      by rw [show ({ writeSlot (reserve v 1) (reserve v 1).len x with len := (reserve v 1).len + 1 } : SV α).N = (writeSlot (reserve v 1) (reserve v 1).len x).N from rfl, (writeSlot_fields _ _ _).2.2, a4],
      by rw [b2, a5]⟩
  · have key : push v x = { writeSlot v v.len x with len := v.len + 1 } := by
      unfold push
      rw [if_neg hc]
    have hl := h.2.2.1
    obtain ⟨b1, b2⟩ := writeStep_spec v x h (by omega)
    rw [key]
    exact ⟨b1, rfl,
      by rw [show ({ writeSlot v v.len x with len := v.len + 1 } : SV α).N = (writeSlot v v.len x).N from rfl, (writeSlot_fields _ _ _).2.2],
      b2⟩

lemma pushAll_spec {α : Type} [Inhabited α] :
    ∀ (l : List α) (v : SV α), WF v →
      WF (pushAll v l) ∧ (pushAll v l).len = v.len + l.length ∧
        (pushAll v l).N = v.N ∧ contents (pushAll v l) = contents v ++ l := by
  intro l
  induction l with
  | nil => intro v h; simpa [pushAll] using h
  | cons a t ih =>
    intro v h
    obtain ⟨p1, p2, p3, p4⟩ := push_spec v a h
    obtain ⟨q1, q2, q3, q4⟩ := ih (push v a) p1
    have hfold : pushAll v (a :: t) = pushAll (push v a) t := by
      simp [pushAll, List.foldl_cons]
    rw [hfold]
    refine ⟨q1, by simp only [List.length_cons]; omega, by rw [q3, p3], by rw [q4, p4]; simp⟩

lemma mkSmallVec_spec (α : Type) [Inhabited α] (N : Nat) :
    WF (mkSmallVec α N) ∧ (mkSmallVec α N).len = 0 ∧ (mkSmallVec α N).cap = N ∧
      (mkSmallVec α N).N = N ∧ contents (mkSmallVec α N) = [] := by
  refine ⟨⟨by simp [mkSmallVec], le_refl _, by simp [mkSmallVec], ?_⟩, rfl, rfl, rfl, rfl⟩
  intro hc
  rw [onHeap_eq_true_iff] at hc
  simp [mkSmallVec] at hc

lemma writeRange_fields {α : Type} (v : SV α) (off : Nat) (src : List α) :
    (writeRange v off src).len = v.len ∧ (writeRange v off src).cap = v.cap ∧
      (writeRange v off src).N = v.N := by
  unfold writeRange
  split <;> exact ⟨rfl, rfl, rfl⟩

lemma take_exact_append {α : Type} (A B C : List α) :
    (A ++ B ++ C).take (A.length + B.length) = A ++ B := by
  rw [List.append_assoc, List.take_append B.length, List.take_left]

lemma writeRangeStep_spec {α : Type} [Inhabited α] (w : SV α) (src : List α)
    (h : WF w) (hfit : w.len + src.length ≤ w.cap) :
    WF { writeRange w w.len src with len := w.len + src.length } ∧
      contents { writeRange w w.len src with len := w.len + src.length } = contents w ++ src := by
  obtain ⟨hs, hN, hl, hh⟩ := h
  unfold writeRange overwriteAt
  by_cases hH : onHeap w = true
  · have hlen : w.heap.length = w.cap := hh hH
    rw [if_pos hH]
    have hA : (w.heap.take w.len).length = w.len := by simp; omega
    have hlen' : (w.heap.take w.len ++ src ++ w.heap.drop (w.len + src.length)).length = w.cap := by
      simp [hlen]
      omega
    have hH' : onHeap ({ w with heap := w.heap.take w.len ++ src ++ w.heap.drop (w.len + src.length), len := w.len + src.length } : SV α) = true := hH
    refine ⟨⟨hs, hN, show w.len + src.length ≤ w.cap from hfit, fun _ => hlen'⟩, ?_⟩
    unfold contents ptrList
    simp only [hH, hH', if_true]
    have := take_exact_append (w.heap.take w.len) src (w.heap.drop (w.len + src.length))
    rw [hA] at this
    exact this
  · have hcap : w.cap = w.N := by
      rw [onHeap_eq_true_iff] at hH; omega
    rw [if_neg hH]
    have hHf : onHeap w = false := by
      revert hH; cases onHeap w <;> simp
    have hA : (w.stack.take w.len).length = w.len := by simp [hs]; omega
    have hlen' : (w.stack.take w.len ++ src ++ w.stack.drop (w.len + src.length)).length = w.N := by
      simp [hs]
      omega
    have hH' : onHeap ({ w with stack := w.stack.take w.len ++ src ++ w.stack.drop (w.len + src.length), len := w.len + src.length } : SV α) = false := hHf
    refine ⟨⟨hlen', hN, show w.len + src.length ≤ w.cap from hfit,
      fun hc => by rw [hH'] at hc; cases hc⟩, ?_⟩
    unfold contents ptrList
    simp only [hHf, hH', if_false]
    have := take_exact_append (w.stack.take w.len) src (w.stack.drop (w.len + src.length))
    rw [hA] at this
    exact this

lemma extendConsuming_spec {α : Type} [Inhabited α] (v : SV α) (src : List α)
    (h : WF v) :
    WF (extendConsuming v src) ∧
      (extendConsuming v src).len = v.len + src.length ∧
      (extendConsuming v src).N = v.N ∧
      contents (extendConsuming v src) = contents v ++ src := by
  have key : extendConsuming v src =
      { writeRange (reserveExact v src.length) (reserveExact v src.length).len src
          with len := (reserveExact v src.length).len + src.length } := rfl
  obtain ⟨a1, a2, a3, a4, a5⟩ := reserveExact_spec v src.length h
  obtain ⟨b1, b2⟩ := writeRangeStep_spec (reserveExact v src.length) src a1 (by omega)
  rw [key]
  refine ⟨b1, ?_, ?_, by rw [b2, a5]⟩
  · rw [show ({ writeRange (reserveExact v src.length) (reserveExact v src.length).len src
        with len := (reserveExact v src.length).len + src.length } : SV α).len
        = (reserveExact v src.length).len + src.length from rfl, a3]
  · rw [show ({ writeRange (reserveExact v src.length) (reserveExact v src.length).len src
        with len := (reserveExact v src.length).len + src.length } : SV α).N
        = (writeRange (reserveExact v src.length) (reserveExact v src.length).len src).N from rfl,
      (writeRange_fields _ _ _).2.2, a4]

/-- C1: the claim states that every transition path (including a failed
allocation step) releases a discarded heap block exactly once and that the
destructor releases the live block exactly once, so no block is ever
released twice. The code violates this: in `grow`, when `realloc` fails,
the source does `free(impl.heap)` and throws, but leaves `cap > N` and the
dangling `impl.heap` pointer in place, so the destructor frees the same
block a second time. In the concrete trace (`N = 1`: two successful pushes,
a third push whose reallocation fails, then destruction) exactly one block
is ever allocated, yet the release log records block `0` twice. -/
theorem claimC1_realloc_failure_double_release :
    reallocFailTrace.allocCount = 1 ∧ reallocFailTrace.freeLog = [0, 0] ∧
      ¬ reallocFailTrace.freeLog.Nodup := by
  refine ⟨rfl, rfl, ?_⟩
  decide

/-- C2: the claim states `capacity() ≥ N` after every operation and that a
shrink landing at or below `N` leaves `capacity = N`. The code violates
this: `shrink()` on a heap state with `len ≤ N` sets `cap = len`. In the
concrete trace (`N = 2`: push three values, pop twice, `shrink()`), the
resulting capacity is `1 < N = 2`. -/
theorem claimC2_shrink_capacity_below_N :
    shrinkBelowNTrace.N = 2 ∧ shrinkBelowNTrace.cap = 1 ∧
      shrinkBelowNTrace.cap < shrinkBelowNTrace.N := by
  decide

/-- C4: for every sequence of `push` operations starting from a
default-constructed buffer, after each call `size()` equals the number of
pushes so far, `capacity() ≥ size()` and `capacity() ≥ N`; moreover each
pushed value landed at the slot that was `length` at the time of its push,
so the contents equal the pushed sequence. (Every prefix of a sequence is
itself a sequence of pushes, so the statement covers "after each call".) -/
theorem claimC4_push_sequences {α : Type} [Inhabited α] (N : Nat) (l : List α) :
    (pushAll (mkSmallVec α N) l).len = l.length ∧
      (pushAll (mkSmallVec α N) l).len ≤ (pushAll (mkSmallVec α N) l).cap ∧
      N ≤ (pushAll (mkSmallVec α N) l).cap ∧
      contents (pushAll (mkSmallVec α N) l) = l := by
  obtain ⟨m1, m2, m3, m4, m5⟩ := mkSmallVec_spec α N
  obtain ⟨q1, q2, q3, q4⟩ := pushAll_spec l (mkSmallVec α N) m1
  have hlen : (pushAll (mkSmallVec α N) l).len = l.length := by
    rw [q2, m2]; omega
  have hN : (pushAll (mkSmallVec α N) l).N = N := by rw [q3, m4]
  have hNcap := q1.2.1
  rw [hN] at hNcap
  exact ⟨hlen, q1.2.2.1, hNcap, by rw [q4, m5]; simp⟩

/-- C5: with the well-formedness invariant of the data model
(`len ≤ cap` and `N ≤ cap`), `reserveExact(additional)` is a no-op when
`cap - len ≥ additional` and otherwise sets the capacity to exactly
`len + additional`; `reserve(additional)` is a no-op under the same guard
and otherwise sets the capacity to the smallest power of two that is
`≥ len + additional`. -/
theorem claimC5_reserve_policy {α : Type} [Inhabited α] (v : SV α) (a : Nat)
    (hwf : WF v) :
    (a ≤ v.cap - v.len → reserveExact v a = v ∧ reserve v a = v) ∧
      (v.cap - v.len < a →
        (reserveExact v a).cap = v.len + a ∧
        IsLeastPowTwoGeq (v.len + a) (reserve v a).cap) := by
  have hl := hwf.2.2.1
  constructor
  · intro hg
    constructor
    · unfold reserveExact; rw [if_pos hg]
    · unfold reserve; rw [if_pos hg]
  · intro hg
    have hgn : ¬ a ≤ v.cap - v.len := by omega
    constructor
    · unfold reserveExact; rw [if_neg hgn]
      exact (grow_spec v (v.len + a) hwf (by omega)).2.1
    · unfold reserve; rw [if_neg hgn]
      have hge := nextPowerOfTwo_ge (v.len + a)
      rw [(grow_spec v (nextPowerOfTwo (v.len + a)) hwf (by omega)).2.1]
      exact nextPowerOfTwo_least (v.len + a)

/-- Witness for C5 at the concrete input `v = mkSmallVec Nat 2`, `a = 5`. -/
theorem claimC5_witness :
    WF (mkSmallVec Nat 2) ∧
      ((5 ≤ (mkSmallVec Nat 2).cap - (mkSmallVec Nat 2).len →
          reserveExact (mkSmallVec Nat 2) 5 = mkSmallVec Nat 2 ∧
            reserve (mkSmallVec Nat 2) 5 = mkSmallVec Nat 2) ∧
        ((mkSmallVec Nat 2).cap - (mkSmallVec Nat 2).len < 5 →
          (reserveExact (mkSmallVec Nat 2) 5).cap = (mkSmallVec Nat 2).len + 5 ∧
            IsLeastPowTwoGeq ((mkSmallVec Nat 2).len + 5)
              (reserve (mkSmallVec Nat 2) 5).cap)) :=
  ⟨by decide, claimC5_reserve_policy (mkSmallVec Nat 2) 5 (by decide)⟩

/-- C6: pushing `N + 1` values into a default-constructed buffer crosses the
inline-to-heap boundary (`onHeap()` afterwards), and indexing at `i` returns
the `i`-th pushed value for every `i < N + 1`. -/
theorem claimC6_boundary_preserves_order {α : Type} [Inhabited α] (N : Nat)
    (l : List α) (h : l.length = N + 1) :
    onHeap (pushAll (mkSmallVec α N) l) = true ∧
      ∀ i, i < N + 1 →
        readSlot (pushAll (mkSmallVec α N) l) i = l.getD i default := by
  obtain ⟨m1, m2, m3, m4, m5⟩ := mkSmallVec_spec α N
  obtain ⟨q1, q2, q3, q4⟩ := pushAll_spec l (mkSmallVec α N) m1
  have hlen : (pushAll (mkSmallVec α N) l).len = N + 1 := by
    rw [q2, m2, h]
    omega
  have hcap : N + 1 ≤ (pushAll (mkSmallVec α N) l).cap := by
    have := q1.2.2.1
    omega
  have hH : onHeap (pushAll (mkSmallVec α N) l) = true := by
    rw [onHeap_eq_true_iff, q3, m4]
    omega
  refine ⟨hH, ?_⟩
  intro i hi
  have hc : (ptrList (pushAll (mkSmallVec α N) l)).take (pushAll (mkSmallVec α N) l).len = l := by
    have : contents (pushAll (mkSmallVec α N) l) = l := by rw [q4, m5]; simp
    exact this
  unfold readSlot
  rw [← getD_take_of_lt default (ptrList (pushAll (mkSmallVec α N) l))
        (pushAll (mkSmallVec α N) l).len i (by omega), hc]

/-- Witness for C6 at the concrete input `N = 1`, pushed values `[10, 20]`. -/
theorem claimC6_witness :
    ([10, 20] : List Nat).length = 1 + 1 ∧
      (onHeap (pushAll (mkSmallVec Nat 1) [10, 20]) = true ∧
        ∀ i, i < 1 + 1 →
          readSlot (pushAll (mkSmallVec Nat 1) [10, 20]) i = [10, 20].getD i default) :=
  ⟨rfl, claimC6_boundary_preserves_order 1 [10, 20] rfl⟩

/-- C7: building a buffer from a literal sequence of `k` values and then
consuming it with `intoVector` returns exactly the original sequence, both
for `k ≤ N` (inline) and `k > N` (heap) — the statement quantifies over all
lists and inline capacities, so it covers both cases. -/
theorem claimC7_literal_roundtrip {α : Type} [Inhabited α] (N : Nat) (l : List α) :
    intoVector (fromList α N l) = l := by
  unfold fromList
  by_cases hl : l.length ≤ N
  · rw [if_pos hl]
    have hH : onHeap (⟨N, l ++ List.replicate (N - l.length) default, [], N, l.length⟩ : SV α) = false := by
      simp [onHeap]
    unfold intoVector
    rw [ite_self]
    unfold ptrList
    rw [hH]
    simp only [if_false]
    exact List.take_left l _
  · rw [if_neg hl]
    have hH : onHeap (⟨N, List.replicate N default, l, l.length, l.length⟩ : SV α) = true := by
      simp [onHeap]
      omega
    unfold intoVector
    rw [ite_self]
    unfold ptrList
    rw [hH]
    simp only [if_true]
    exact List.take_length l

/-- Counterexample to C9 as stated: a concrete heap-resident buffer
(`N = 1`, two pushed values, `cap = 2`) with `sizeof(SmallVec) = 24` and
`sizeof(T) = 4`, whose reported footprint (36) differs from
"container overhead plus `capacity * sizeOf(T)`" (32). -/
theorem claimC9_counterexample :
    onHeap (pushAll (mkSmallVec Nat 1) [1, 2]) = true ∧
      takenSize (pushAll (mkSmallVec Nat 1) [1, 2]) 24 4 ≠
        24 + (pushAll (mkSmallVec Nat 1) [1, 2]).cap * 4 := by
  decide

/-- C9 (amended): `takenSize()` reports the container's own overhead when
inline, and the overhead plus `(capacity + 1) * sizeOf(T)` when on the heap
(the source multiplies `cap + 1`, not `cap`, by `sizeof(T)`). -/
theorem claimC9_takenSize {α : Type} (v : SV α) (ssv st : Nat) :
    (onHeap v = true → takenSize v ssv st = ssv + (v.cap + 1) * st) ∧
      (onStack v = true → takenSize v ssv st = ssv) := by
  constructor
  · intro h
    simp [takenSize, h]
  · intro h
    have hf : onHeap v = false := by
      rw [onStack, Bool.not_eq_true'] at h
      exact h
    simp [takenSize, hf]

/-- Witness for C9 (amended) at a concrete heap state and a concrete inline
state. -/
theorem claimC9_witness :
    (onHeap (pushAll (mkSmallVec Nat 1) [1, 2]) = true ∧
      takenSize (pushAll (mkSmallVec Nat 1) [1, 2]) 24 4 =
        24 + ((pushAll (mkSmallVec Nat 1) [1, 2]).cap + 1) * 4) ∧
    (onStack (mkSmallVec Nat 1) = true ∧ takenSize (mkSmallVec Nat 1) 24 4 = 24) :=
  ⟨⟨by decide, (claimC9_takenSize (pushAll (mkSmallVec Nat 1) [1, 2]) 24 4).1 (by decide)⟩,
   ⟨by decide, (claimC9_takenSize (mkSmallVec Nat 1) 24 4).2 (by decide)⟩⟩

/-- C3: a heap-resident buffer with `len ≤ N`, after `shrink()`, is in the
inline representation (`onStack()`), keeps its first `len` elements in value
and order, and — in the resource view — the old heap block has been released
exactly once (appended once to the release log) and the container no longer
holds a heap pointer. -/
theorem claimC3_shrink_heap_to_inline {α : Type} [Inhabited α] (v : SV α)
    (r : RVec) (m : Mem) (ok : Bool) (blockId : Nat)
    (hwf : WF v) (hheap : onHeap v = true) (hlen : v.len ≤ v.N)
    (hr : onHeapR r = true) (hrlen : r.len ≤ r.N) (hid : r.heapPtr = some blockId) :
    onStack (shrink v) = true ∧ contents (shrink v) = contents v ∧
      (shrinkR r m ok).1.heapPtr = none ∧
      (shrinkR r m ok).2.1.freeLog = m.freeLog ++ [blockId] := by
  obtain ⟨hs, hN, hl, hh⟩ := hwf
  have hstf : onStack v = false := by
    rw [onStack, hheap]
    rfl
  have hcl : v.heap.length = v.cap := hh hheap
  refine ⟨?_, ?_, ?_, ?_⟩
  · unfold shrink
    rw [if_neg (by simp [hstf]), if_pos hlen]
    simp [onStack, onHeap]
    omega
  · unfold shrink
    rw [if_neg (by simp [hstf]), if_pos hlen]
    have hH' : onHeap (⟨v.N, v.heap.take v.len ++ v.stack.drop v.len, [], v.len, v.len⟩ : SV α) = false := by
      simp [onHeap]
      omega
    have hA : (v.heap.take v.len).length = v.len := by
      simp
      omega
    unfold contents
    rw [ptrList_stack _ hH', ptrList_heap v hheap]
    show (v.heap.take v.len ++ v.stack.drop v.len).take v.len = v.heap.take v.len
    rw [List.take_append_of_le_length (by rw [hA]), List.take_take, Nat.min_self]
  · unfold shrinkR
    rw [if_neg (by simp [onStackR, hr]), if_pos hrlen]
  · unfold shrinkR
    rw [if_neg (by simp [onStackR, hr]), if_pos hrlen]
    simp [freeR, hid]

/-- Witness for C3 at concrete inputs: a `N = 1` buffer pushed to the heap
and popped back to one element, plus a concrete resource state. -/
theorem claimC3_witness :
    WF (pop (pushAll (mkSmallVec Nat 1) [5, 6])) ∧
      onHeap (pop (pushAll (mkSmallVec Nat 1) [5, 6])) = true ∧
      (pop (pushAll (mkSmallVec Nat 1) [5, 6])).len ≤ (pop (pushAll (mkSmallVec Nat 1) [5, 6])).N ∧
      onHeapR (⟨1, 2, 1, some 7⟩ : RVec) = true ∧
      (⟨1, 2, 1, some 7⟩ : RVec).len ≤ (⟨1, 2, 1, some 7⟩ : RVec).N ∧
      (⟨1, 2, 1, some 7⟩ : RVec).heapPtr = some 7 ∧
      (onStack (shrink (pop (pushAll (mkSmallVec Nat 1) [5, 6]))) = true ∧
        contents (shrink (pop (pushAll (mkSmallVec Nat 1) [5, 6]))) =
          contents (pop (pushAll (mkSmallVec Nat 1) [5, 6])) ∧
        (shrinkR ⟨1, 2, 1, some 7⟩ ⟨8, [7], [], 1⟩ true).1.heapPtr = none ∧
        (shrinkR ⟨1, 2, 1, some 7⟩ ⟨8, [7], [], 1⟩ true).2.1.freeLog =
          (⟨8, [7], [], 1⟩ : Mem).freeLog ++ [7]) :=
  ⟨by decide, by decide, by decide, by decide, by decide, by decide,
   claimC3_shrink_heap_to_inline (pop (pushAll (mkSmallVec Nat 1) [5, 6]))
     ⟨1, 2, 1, some 7⟩ ⟨8, [7], [], 1⟩ true 7
     (by decide) (by decide) (by decide) (by decide) (by decide) (by decide)⟩

/-- C8: `back()` as written (`this[len - 1]`) designates the object at byte
offset `(len - 1) * sizeof(SmallVec)` from the container, which differs from
the byte offset of element `len - 1` in the live storage whenever the
container holds at least two elements — hence `back()` is not equivalent to
returning the element at index `size() - 1` of the live storage. The
hypotheses only state that the element, `std::size_t` and object sizes are
positive, as they are for every instantiation. -/
theorem claimC8_back_wrong_indexing (st ss p N len : Nat)
    (hst : 1 ≤ st) (hss : 1 ≤ ss) (hN : 1 ≤ N) (hlen : 2 ≤ len) :
    backOffset (sizeofSmallVec st ss p N) len ≠ elemOffset st (len - 1) := by
  unfold backOffset elemOffset sizeofSmallVec
  have h1 : st < max (N * st) p + 2 * ss := by
    have h0 : st ≤ N * st := Nat.le_mul_of_pos_left st hN
    have h2 : N * st ≤ max (N * st) p := le_max_left _ _
    omega
  have h3 : (len - 1) * st < (len - 1) * (max (N * st) p + 2 * ss) :=
    mul_lt_mul_of_pos_left h1 (by omega)
  omega

/-- Witness for C8 at concrete sizes: `sizeof(T) = 4`,
`sizeof(std::size_t) = 8`, pointer size 8, `N = 2`, `len = 2`. -/
theorem claimC8_witness :
    1 ≤ 4 ∧ 1 ≤ 8 ∧ 1 ≤ 2 ∧ 2 ≤ 2 ∧
      backOffset (sizeofSmallVec 4 8 8 2) 2 ≠ elemOffset 4 (2 - 1) :=
  ⟨by decide, by decide, by decide, by decide,
   claimC8_back_wrong_indexing 4 8 8 2 2 (by decide) (by decide) (by decide) (by decide)⟩

lemma moveB_heapPtr (rN rl : Nat) (m : Mem) :
    (extendConsumingR (mkRVec rN) m true rl).1.heapPtr = none ∨
      (extendConsumingR (mkRVec rN) m true rl).1.heapPtr = some m.nextId := by
  unfold extendConsumingR reserveExactR growR mkRVec mallocR onStackR onHeapR
  by_cases hg : rl ≤ rN
  · simp [hg]
  · simp [hg, show rl ≠ rN from by omega]

/-- C10: move-construction of `B` from `A` leaves `A`'s size, capacity and
representation unchanged and never hands `A`'s heap block to `B`: `B`
obtains its own storage through `reserveExact` (in the resource view, a
block that is fresh in the environment), the elements are exchanged
pairwise out of `A`'s slots into `B` (so `B` holds `A`'s former contents),
and `A`'s destructor afterwards still releases `A`'s own block. -/
theorem claimC10_move_construction {α : Type} [Inhabited α] (a : SV α)
    (r : RVec) (m : Mem) (blockId : Nat) (hwf : WF a)
    (hfresh : ∀ j, r.heapPtr = some j → j < m.nextId)
    (hid : onHeapR r = true → r.heapPtr = some blockId) :
    ((moveConstructF a).2.len = a.len ∧ (moveConstructF a).2.cap = a.cap ∧
      (moveConstructF a).2.N = a.N ∧ onHeap (moveConstructF a).2 = onHeap a) ∧
    (contents (moveConstructF a).1 = contents a ∧
      (moveConstructF a).1.len = a.len) ∧
    ((moveConstructR r m true).2.1 = r ∧
      (∀ j, (moveConstructR r m true).1.heapPtr = some j → ¬ r.heapPtr = some j) ∧
      (onHeapR r = true →
        (destructR (moveConstructR r m true).2.1 (moveConstructR r m true).2.2.1).freeLog
          = (moveConstructR r m true).2.2.1.freeLog ++ [blockId])) := by
  refine ⟨⟨?_, ?_, ?_, ?_⟩, ⟨?_, ?_⟩, ?_, ?_, ?_⟩
  · exact (writeRange_fields a 0 (List.replicate a.len default)).1
  · exact (writeRange_fields a 0 (List.replicate a.len default)).2.1
  · exact (writeRange_fields a 0 (List.replicate a.len default)).2.2
  · show onHeap (writeRange a 0 (List.replicate a.len default)) = onHeap a
    unfold writeRange
    split <;> rfl
  · show contents (extendConsuming (mkSmallVec α a.N) (contents a)) = contents a
    obtain ⟨m1, m2, m3, m4, m5⟩ := mkSmallVec_spec α a.N
    rw [(extendConsuming_spec (mkSmallVec α a.N) (contents a) m1).2.2.2, m5]
    simp
  · show (extendConsuming (mkSmallVec α a.N) (contents a)).len = a.len
    obtain ⟨m1, m2, m3, m4, m5⟩ := mkSmallVec_spec α a.N
    rw [(extendConsuming_spec (mkSmallVec α a.N) (contents a) m1).2.1, m2,
        contents_length a hwf]
    omega
  · rfl
  · intro j hj
    intro hrj
    have hB := moveB_heapPtr r.N r.len m
    have hj' : (extendConsumingR (mkRVec r.N) m true r.len).1.heapPtr = some j := hj
    rcases hB with hB | hB
    · rw [hB] at hj'
      cases hj'
    · rw [hB] at hj'
      have : j = m.nextId := by
        injection hj' with hval
        omega
      have := hfresh j hrj
      omega
  · intro hr
    show (destructR r _).freeLog = _
    unfold destructR
    rw [if_pos hr]
    simp [freeR, hid hr]

/-- Witness for C10 at concrete inputs: a `N = 1` heap-resident source
buffer with three elements, and a matching resource state. -/
theorem claimC10_witness :
    WF (pushAll (mkSmallVec Nat 1) [5, 6, 7]) ∧
      (∀ j, (⟨1, 4, 3, some 2⟩ : RVec).heapPtr = some j → j < (⟨5, [2], [], 3⟩ : Mem).nextId) ∧
      (onHeapR (⟨1, 4, 3, some 2⟩ : RVec) = true → (⟨1, 4, 3, some 2⟩ : RVec).heapPtr = some 2) ∧
      (((moveConstructF (pushAll (mkSmallVec Nat 1) [5, 6, 7])).2.len = (pushAll (mkSmallVec Nat 1) [5, 6, 7]).len ∧
          (moveConstructF (pushAll (mkSmallVec Nat 1) [5, 6, 7])).2.cap = (pushAll (mkSmallVec Nat 1) [5, 6, 7]).cap ∧
          (moveConstructF (pushAll (mkSmallVec Nat 1) [5, 6, 7])).2.N = (pushAll (mkSmallVec Nat 1) [5, 6, 7]).N ∧
          onHeap (moveConstructF (pushAll (mkSmallVec Nat 1) [5, 6, 7])).2 = onHeap (pushAll (mkSmallVec Nat 1) [5, 6, 7])) ∧
        (contents (moveConstructF (pushAll (mkSmallVec Nat 1) [5, 6, 7])).1 = contents (pushAll (mkSmallVec Nat 1) [5, 6, 7]) ∧
          (moveConstructF (pushAll (mkSmallVec Nat 1) [5, 6, 7])).1.len = (pushAll (mkSmallVec Nat 1) [5, 6, 7]).len) ∧
        ((moveConstructR ⟨1, 4, 3, some 2⟩ ⟨5, [2], [], 3⟩ true).2.1 = ⟨1, 4, 3, some 2⟩ ∧
          (∀ j, (moveConstructR ⟨1, 4, 3, some 2⟩ ⟨5, [2], [], 3⟩ true).1.heapPtr = some j →
            ¬ (⟨1, 4, 3, some 2⟩ : RVec).heapPtr = some j) ∧
          (onHeapR (⟨1, 4, 3, some 2⟩ : RVec) = true →
            (destructR (moveConstructR ⟨1, 4, 3, some 2⟩ ⟨5, [2], [], 3⟩ true).2.1
                (moveConstructR ⟨1, 4, 3, some 2⟩ ⟨5, [2], [], 3⟩ true).2.2.1).freeLog
              = (moveConstructR ⟨1, 4, 3, some 2⟩ ⟨5, [2], [], 3⟩ true).2.2.1.freeLog ++ [2]))) :=
  ⟨by decide,
   by intro j hj; simp at hj; show j < 5; omega,
   fun _ => rfl,
   claimC10_move_construction (pushAll (mkSmallVec Nat 1) [5, 6, 7])
     ⟨1, 4, 3, some 2⟩ ⟨5, [2], [], 3⟩ 2 (by decide)
     (by intro j hj; simp at hj; show j < 5; omega) (fun _ => rfl)⟩

end SmallVecModel
